import Mathlib

/-!
Verification of the `pi-conversation-retro` extension (src/extensions/index.ts).

The TypeScript source is shallowly embedded below.  JavaScript strings are
modelled as Lean `String`s (operated on through their character lists, which
matches JS code-unit semantics for the ASCII data handled by this program);
JS numbers holding integral values are `Int`/`Nat`; `Date` values are their
UTC epoch milliseconds (`Int`); fallible I/O is abstracted as explicit
`Option`/`Bool` inputs at the exact points the code performs I/O.
-/

namespace ConversationRetro

/-! ## JS string primitives

Models of the JavaScript string operations used by the source, written over
`String.data` so that everything reduces by computation. -/

/-- Model of JS `String.prototype.split` with a single-character separator.
`splitChar '_' "a_b".data = [['a'],['b']]`; splitting the empty string yields
one empty field, as in JS. -/
def splitChar (sep : Char) : List Char → List (List Char)
  | [] => [[]]
  | c :: rest =>
    match splitChar sep rest with
    | [] => [[c]]
    | g :: gs => if c = sep then [] :: g :: gs else (c :: g) :: gs

/-- The function `splitChar` never returns an empty list of fields. -/
theorem splitChar_ne_nil (sep : Char) (l : List Char) : splitChar sep l ≠ [] := by
  cases l with
  | nil => simp [splitChar]
  | cons c rest =>
    simp only [splitChar]
    cases h : splitChar sep rest with
    | nil => simp
    | cons g gs =>
      by_cases hc : c = sep <;> simp [hc]

/-- Model of JS `String.prototype.startsWith` (code-unit prefix test). -/
def jsStartsWith (s pre : String) : Bool := pre.data.isPrefixOf s.data

/-- Model of JS `String.prototype.endsWith` (code-unit suffix test). -/
def jsEndsWith (s suf : String) : Bool := suf.data.isSuffixOf s.data

/-- JS whitespace test for the characters relevant to `String.prototype.trim`. -/
def isJsWs (c : Char) : Bool := c = ' ' ∨ c = '\t' ∨ c = '\n' ∨ c = '\r'

/-- Model of JS `String.prototype.trim`: strip leading and trailing whitespace. -/
def jsTrim (s : String) : String :=
  ⟨((s.data.dropWhile isJsWs).reverse.dropWhile isJsWs).reverse⟩

/-- Join a list of path components with `/`, as node's `path.posix` does when
it assembles a relative path. -/
def joinComps : List (List Char) → List Char
  | [] => []
  | [c] => c
  | c :: rest => c ++ '/' :: joinComps rest

/-! ## Path model (node `path.posix`)

`src/extensions/index.ts` lines 146-149:

```ts
function isPathInside(child: string, parent: string): boolean {
  const rel = path.relative(path.resolve(parent), path.resolve(child));
  return rel === "" || (!rel.startsWith("..") && !path.isAbsolute(rel));
}
```

`path.resolve` of an absolute POSIX path normalizes it: empty and `.`
segments are dropped and `..` pops the previous segment.  `path.relative`
of two resolved absolute paths drops their common component prefix and
produces `..` steps for what remains of `from` followed by the remainder
of `to`.  The model below implements exactly that on component lists. -/

/-- One step of node path normalization over an accumulated component stack. -/
def resolveStep (acc : List (List Char)) (c : List Char) : List (List Char) :=
  if c = [] ∨ c = ['.'] then acc
  else if c = ['.', '.'] then acc.dropLast
  else acc ++ [c]

/-- Component list of `path.resolve(p)` for an absolute POSIX path `p`. -/
def resolveComps (p : String) : List (List Char) :=
  (splitChar '/' p.data).foldl resolveStep []

/-- Component list of node `path.posix.relative` applied to two resolved
component lists: drop the common prefix, then one `..` per remaining
`from`-component followed by the remaining `to`-components. -/
def relComps : List (List Char) → List (List Char) → List (List Char)
  | [], ts => ts
  | f :: fs, [] => (f :: fs).map fun _ => ['.', '.']
  | f :: fs, t :: ts =>
    if f = t then relComps fs ts
    else ((f :: fs).map fun _ => ['.', '.']) ++ t :: ts

/-- Model of node `path.posix.relative` for absolute inputs. -/
def pathRelative (fromP toP : String) : String :=
  ⟨joinComps (relComps (resolveComps fromP) (resolveComps toP))⟩

/-- Model of `isPathInside` from src/extensions/index.ts lines 146-149. -/
def isPathInside (child parent : String) : Bool :=
  let rel := pathRelative parent child
  rel = "" || (!jsStartsWith rel ".." && !jsStartsWith rel "/")

end ConversationRetro

namespace ConversationRetro

/-! ## Properties of the path model (claim C7) -/

/-- Fields produced by `splitChar` never contain the separator. -/
theorem splitChar_no_sep (sep : Char) : ∀ (l : List Char), ∀ g ∈ splitChar sep l, sep ∉ g := by
  intro l
  induction l with
  | nil => intro g hg; simp [splitChar] at hg; simp [hg]
  | cons c rest ih =>
    intro g hg
    simp only [splitChar] at hg
    cases h : splitChar sep rest with
    | nil => exact absurd h (splitChar_ne_nil sep rest)
    | cons g' gs' =>
      rw [h] at hg
      by_cases hc : c = sep
      · simp [hc] at hg
        rcases hg with hg | hg
        · simp [hg]
        · exact ih g (h ▸ List.mem_cons.mpr hg)
      · simp [hc] at hg
        rcases hg with hg | hg
        · subst hg
          intro hmem
          rcases List.mem_cons.mp hmem with h1 | h1
          · exact hc h1.symm
          · exact ih g' (h ▸ List.mem_cons_self g' gs') h1
        · exact ih g (h ▸ List.mem_cons_of_mem g' hg)

/-- Components accumulated by folding `resolveStep` stay nonempty and
separator-free. -/
theorem foldl_resolveStep_clean :
    ∀ (fields acc : List (List Char)),
      (∀ g ∈ acc, g ≠ [] ∧ '/' ∉ g) → (∀ f ∈ fields, '/' ∉ f) →
      ∀ g ∈ fields.foldl resolveStep acc, g ≠ [] ∧ '/' ∉ g := by
  intro fields
  induction fields with
  | nil => intro acc hacc _ g hg; exact hacc g hg
  | cons f fs ih =>
    intro acc hacc hf g hg
    simp only [List.foldl_cons] at hg
    refine ih (resolveStep acc f) ?_ (fun x hx => hf x (List.mem_cons_of_mem f hx)) g hg
    intro x hx
    unfold resolveStep at hx
    by_cases h1 : f = [] ∨ f = ['.']
    · simp [h1] at hx; exact hacc x hx
    · by_cases h2 : f = ['.', '.']
      · simp [h1, h2] at hx
        exact hacc x (List.dropLast_sublist acc |>.mem hx)
      · simp [h1, h2] at hx
        rcases hx with hx | hx
        · exact hacc x hx
        · refine hx.symm ▸ ⟨?_, hf f (List.mem_cons_self f fs)⟩
          intro hnil
          exact h1 (Or.inl hnil)

/-- Every component of a resolved path is nonempty and contains no `/`. -/
theorem resolveComps_clean (p : String) : ∀ g ∈ resolveComps p, g ≠ [] ∧ '/' ∉ g := by
  unfold resolveComps
  exact foldl_resolveStep_clean (splitChar '/' p.data) [] (by simp)
    (fun f hf => splitChar_no_sep '/' p.data f hf)

/-- A `..` prefix of a joined component list is exactly a `..` prefix of its
first component. -/
theorem dotdot_prefix_join (c : List Char) (rest : List (List Char)) :
    List.isPrefixOf ['.', '.'] (joinComps (c :: rest)) = List.isPrefixOf ['.', '.'] c := by
  cases rest with
  | nil => rfl
  | cons r rs =>
    rcases c with _ | ⟨x, _ | ⟨y, t⟩⟩
    · rfl
    · rfl
    · show List.isPrefixOf ['.', '.'] ((x :: y :: t) ++ '/' :: joinComps (r :: rs)) = _
      simp [List.isPrefixOf]

/-- A joined component list whose head component starts with a non-slash
character does not start with `/`. -/
theorem slash_prefix_join (x : Char) (c' : List Char) (rest : List (List Char)) (hx : x ≠ '/') :
    List.isPrefixOf ['/'] (joinComps ((x :: c') :: rest)) = false := by
  have hb : ('/' == x) = false := by
    simp [hx.symm]
  cases rest with
  | nil => simp [joinComps, List.isPrefixOf, hb]
  | cons r rs => simp [joinComps, List.isPrefixOf, hb]

/-- Joining a nonempty head component yields a nonempty character list. -/
theorem join_cons_ne_nil (x : Char) (c' : List Char) (rest : List (List Char)) :
    joinComps ((x :: c') :: rest) ≠ [] := by
  cases rest with
  | nil => simp [joinComps]
  | cons r rs => simp [joinComps]

/-- Relative path of a list against an extension of itself is the extension. -/
theorem relComps_append : ∀ (p r : List (List Char)), relComps p (p ++ r) = r := by
  intro p
  induction p with
  | nil => intro r; rfl
  | cons f fs ih =>
    intro r
    simp [relComps, ih]

/-- Case analysis for `relComps`: the two inputs are equal, or the second
extends the first, or the relative path starts with a `..` component. -/
theorem relComps_cases : ∀ (p q : List (List Char)),
    (p = q ∧ relComps p q = []) ∨
    (∃ c cs, q = p ++ c :: cs ∧ relComps p q = c :: cs) ∨
    (∃ rest, relComps p q = ['.', '.'] :: rest) := by
  intro p
  induction p with
  | nil =>
    intro q
    cases q with
    | nil => exact Or.inl ⟨rfl, rfl⟩
    | cons c cs => exact Or.inr (Or.inl ⟨c, cs, rfl, rfl⟩)
  | cons f fs ih =>
    intro q
    cases q with
    | nil =>
      refine Or.inr (Or.inr ⟨fs.map fun _ => ['.', '.'], ?_⟩)
      simp [relComps]
    | cons t ts =>
      by_cases hft : f = t
      · subst hft
        have : relComps (f :: fs) (f :: ts) = relComps fs ts := by simp [relComps]
        rcases ih ts with ⟨heq, hrc⟩ | ⟨c, cs, hext, hrc⟩ | ⟨rest, hrc⟩
        · exact Or.inl ⟨by rw [heq], by rw [this, hrc]⟩
        · exact Or.inr (Or.inl ⟨c, cs, by rw [hext]; rfl, by rw [this, hrc]⟩)
        · exact Or.inr (Or.inr ⟨rest, by rw [this, hrc]⟩)
      · refine Or.inr (Or.inr ⟨(fs.map fun _ => ['.', '.']) ++ t :: ts, ?_⟩)
        simp [relComps, hft]

theorem jsStartsWith_mk_dots (l : List Char) :
    jsStartsWith ⟨l⟩ ".." = List.isPrefixOf ['.', '.'] l := rfl

theorem jsStartsWith_mk_slash (l : List Char) :
    jsStartsWith ⟨l⟩ "/" = List.isPrefixOf ['/'] l := rfl

end ConversationRetro

namespace ConversationRetro

theorem mk_eq_empty_iff (l : List Char) : (String.mk l = "") ↔ l = [] := by
  constructor
  · intro h
    exact congrArg String.data h
  · intro h
    rw [h]

/-- Claim C7 (amended): for absolute POSIX paths, `isPathInside child parent`
returns true exactly when the resolved child equals the resolved parent or is
a true descendant of it whose first component below the parent does not itself
begin with two dots.  In particular sibling paths sharing only a string prefix
are rejected, while `parent` itself and ordinary subpaths are accepted. -/
theorem isPathInside_iff_descendant (child parent : String)
    (hc : jsStartsWith child "/" = true) (hp : jsStartsWith parent "/" = true) :
    isPathInside child parent = true ↔
      (resolveComps child = resolveComps parent ∨
       ∃ c cs, resolveComps child = resolveComps parent ++ c :: cs ∧
         List.isPrefixOf ['.', '.'] c = false) := by
  clear hc hp
  rcases relComps_cases (resolveComps parent) (resolveComps child) with
    ⟨heq, hrc⟩ | ⟨c, cs, hext, hrc⟩ | ⟨rest, hrc⟩
  · have hinside : isPathInside child parent = true := by
      simp [isPathInside, pathRelative, hrc, joinComps, mk_eq_empty_iff]
    rw [hinside]
    simp only [true_iff]
    exact Or.inl heq.symm
  · have hmem : c ∈ resolveComps child := by
      rw [hext]
      exact List.mem_append_right _ (List.mem_cons_self c cs)
    obtain ⟨hne, hnos⟩ := resolveComps_clean child c hmem
    obtain ⟨x, c', rfl⟩ := List.exists_cons_of_ne_nil hne
    have hx : x ≠ '/' := by
      intro h
      exact hnos (h ▸ List.mem_cons_self x c')
    have hinside : isPathInside child parent = !(List.isPrefixOf ['.', '.'] (x :: c')) := by
      simp only [isPathInside, pathRelative, hrc]
      rw [jsStartsWith_mk_dots, jsStartsWith_mk_slash, dotdot_prefix_join,
        slash_prefix_join x c' cs hx]
      simp [mk_eq_empty_iff, join_cons_ne_nil]
    rw [hinside]
    constructor
    · intro h
      refine Or.inr ⟨x :: c', cs, hext, ?_⟩
      simpa using h
    · intro h
      rcases h with h | ⟨c2, cs2, heq2, hpre2⟩
      · rw [h] at hext
        exact absurd hext.symm (by simp)
      · rw [hext] at heq2
        have hcons : (x :: c') :: cs = c2 :: cs2 := List.append_cancel_left heq2
        have hc2 : c2 = x :: c' := (List.cons.injEq _ _ _ _ ▸ hcons).1.symm
        rw [hc2] at hpre2
        simp [hpre2]
  · have hinside : isPathInside child parent = false := by
      simp only [isPathInside, pathRelative, hrc]
      rw [jsStartsWith_mk_dots, dotdot_prefix_join]
      simp [mk_eq_empty_iff, join_cons_ne_nil, List.isPrefixOf]
    rw [hinside]
    simp only [Bool.false_eq_true, false_iff]
    intro h
    rcases h with h | ⟨c2, cs2, heq2, hpre2⟩
    · rw [h] at hrc
      have : relComps (resolveComps parent) (resolveComps parent) = [] := by
        have := relComps_append (resolveComps parent) []
        simpa using this
      rw [this] at hrc
      exact List.noConfusion hrc
    · rw [heq2, relComps_append] at hrc
      have hc2 : c2 = ['.', '.'] := (List.cons.injEq _ _ _ _ ▸ hrc).1
      rw [hc2] at hpre2
      simp [List.isPrefixOf] at hpre2

/-- Claim C7 counterexample: `/repo/..x` resolves to a true descendant of
`/repo` (its components are the parent's plus one extra component), yet
`isPathInside` rejects it because the relative path `..x` starts with the
characters `..`. -/
theorem isPathInside_rejects_dotdot_descendant :
    resolveComps "/repo/..x" = resolveComps "/repo" ++ [['.', '.', 'x']] ∧
    isPathInside "/repo/..x" "/repo" = false := by decide

/-- Witness for the amended claim C7 at concrete paths. -/
theorem isPathInside_iff_descendant_witness :
    jsStartsWith "/repo/sub" "/" = true ∧ jsStartsWith "/repo" "/" = true ∧
    isPathInside "/repo/sub" "/repo" = true :=
  ⟨by decide, by decide,
    (isPathInside_iff_descendant "/repo/sub" "/repo" (by decide) (by decide)).mpr
      (Or.inr ⟨['s', 'u', 'b'], [], by decide, by decide⟩)⟩

end ConversationRetro

namespace ConversationRetro

/-! ## Session-file timestamp parsing

`src/extensions/index.ts` lines 183-193:

```ts
function parseCreatedAtFromSessionFileName(filePath: string): Date | undefined {
  const base = path.basename(filePath, ".jsonl");
  const timestampPart = base.split("_")[0];
  const match = timestampPart.match(/^(\d{4}-\d{2}-\d{2})T(\d{2})-(\d{2})-(\d{2})-(\d{3})Z$/);
  if (!match) return undefined;
  const iso = `${match[1]}T${match[2]}:${match[3]}:${match[4]}.${match[5]}Z`;
  const ms = Date.parse(iso);
  if (!Number.isFinite(ms)) return undefined;
  return new Date(ms);
}
```

`Date` values are modelled as their UTC epoch milliseconds. -/

/-- Numeric value of a decimal digit character. -/
def digitVal (c : Char) : Nat := c.toNat - '0'.toNat

/-- Two decimal digit characters as a number. -/
def d2 (a b : Char) : Nat := 10 * digitVal a + digitVal b

/-- Three decimal digit characters as a number. -/
def d3 (a b c : Char) : Nat := 100 * digitVal a + 10 * digitVal b + digitVal c

/-- Four decimal digit characters as a number. -/
def d4 (a b c d : Char) : Nat :=
  1000 * digitVal a + 100 * digitVal b + 10 * digitVal c + digitVal d

/-- Gregorian leap-year test. -/
def isLeapYear (y : Nat) : Bool := (y % 4 == 0 && y % 100 != 0) || y % 400 == 0

/-- Number of days in a month of the proleptic Gregorian calendar. -/
def daysInMonth (y m : Nat) : Nat :=
  if m = 2 then (if isLeapYear y then 29 else 28)
  else if m = 4 ∨ m = 6 ∨ m = 9 ∨ m = 11 then 30
  else 31

/-- Number of leap years in `[0, y)` of the proleptic Gregorian calendar. -/
def leapsBefore (y : Nat) : Nat := (y + 3) / 4 - (y + 99) / 100 + (y + 399) / 400

/-- Days from year 0 to the start of year `y`. -/
def daysFromYear0 (y : Nat) : Nat := 365 * y + leapsBefore y

/-- Zero-based day of the year of a calendar date. -/
def dayOfYear (y m d : Nat) : Nat :=
  (List.range (m - 1)).foldl (fun acc i => acc + daysInMonth y (i + 1)) 0 + (d - 1)

/-- UTC epoch milliseconds of a calendar date and time. -/
def epochMsOfParts (y mo d h mi s ms : Nat) : Int :=
  ((daysFromYear0 y + dayOfYear y mo d : Int) - (daysFromYear0 1970 : Nat)) * 86400000
    + h * 3600000 + mi * 60000 + s * 1000 + ms

/-- ES date-string validity of the date fields. -/
def validDateParts (y mo d : Nat) : Bool :=
  1 ≤ mo && mo ≤ 12 && 1 ≤ d && d ≤ daysInMonth y mo

/-- ES date-string validity of the time fields (`24:00:00.000` is allowed). -/
def validTimeParts (h mi s ms : Nat) : Bool :=
  (h ≤ 23 && mi ≤ 59 && s ≤ 59) || (h == 24 && mi == 0 && s == 0 && ms == 0)

/-- Model of JS `Date.parse` restricted to strings of the exact shape
`YYYY-MM-DDTHH:MM:SS.mmmZ`, the only shape this program ever feeds it:
the UTC epoch milliseconds, or `none` (JS `NaN`) when the string is not of
that shape or its fields are out of calendar range. -/
def dateParseIso (s : String) : Option Int :=
  match s.data with
  | [y1, y2, y3, y4, '-', b1, b2, '-', c1, c2, 'T',
     h1, h2, ':', m1, m2, ':', x1, x2, '.', u1, u2, u3, 'Z'] =>
    if [y1, y2, y3, y4, b1, b2, c1, c2, h1, h2, m1, m2, x1, x2, u1, u2, u3].all Char.isDigit then
      let y := d4 y1 y2 y3 y4
      let mo := d2 b1 b2
      let d := d2 c1 c2
      let h := d2 h1 h2
      let mi := d2 m1 m2
      let sec := d2 x1 x2
      let ms := d3 u1 u2 u3
      if validDateParts y mo d && validTimeParts h mi sec ms then
        some (epochMsOfParts y mo d h mi sec ms)
      else none
    else none
  | _ => none

/-- The capture groups of the timestamp regex, one field per digit character
(four year digits, two month, two day, two hour, two minute, two second,
three millisecond digits). -/
structure TsGroups where
  (y1 y2 y3 y4 mo1 mo2 dd1 dd2 h1 h2 n1 n2 s1 s2 u1 u2 u3 : Char)
deriving DecidableEq

/-- Model of `timestampPart.match(/^(\d{4}-\d{2}-\d{2})T(\d{2})-(\d{2})-(\d{2})-(\d{3})Z$/)`. -/
def matchTimestampName (s : String) : Option TsGroups :=
  match s.data with
  | [y1, y2, y3, y4, '-', b1, b2, '-', c1, c2, 'T',
     h1, h2, '-', m1, m2, '-', x1, x2, '-', u1, u2, u3, 'Z'] =>
    if [y1, y2, y3, y4, b1, b2, c1, c2, h1, h2, m1, m2, x1, x2, u1, u2, u3].all Char.isDigit then
      some ⟨y1, y2, y3, y4, b1, b2, c1, c2, h1, h2, m1, m2, x1, x2, u1, u2, u3⟩
    else none
  | _ => none

/-- The ISO string assembled on line 189 of the source: the date group kept
as is, the time groups re-joined with `:` and `.` instead of `-`. -/
def isoOfGroups (g : TsGroups) : String :=
  ⟨[g.y1, g.y2, g.y3, g.y4, '-', g.mo1, g.mo2, '-', g.dd1, g.dd2, 'T',
    g.h1, g.h2, ':', g.n1, g.n2, ':', g.s1, g.s2, '.', g.u1, g.u2, g.u3, 'Z']⟩

/-- Model of node `path.basename(p, ".jsonl")`: the last path component, with
the `.jsonl` suffix stripped when it is a proper suffix. -/
def basenameJsonl (p : String) : String :=
  let base : List Char := (splitChar '/' p.data).getLastD []
  if base ≠ ".jsonl".data ∧ ".jsonl".data.isSuffixOf base then
    ⟨base.take (base.length - 6)⟩
  else ⟨base⟩

/-- The segment of the basename before the first `_` (`base.split("_")[0]`). -/
def leadingSegment (p : String) : String :=
  ⟨(splitChar '_' (basenameJsonl p).data).headD []⟩

/-- Model of `parseCreatedAtFromSessionFileName` from src/extensions/index.ts
lines 183-193, returning the epoch milliseconds of the parsed `Date`. -/
def parseCreatedAtFromSessionFileName (filePath : String) : Option Int :=
  match matchTimestampName (leadingSegment filePath) with
  | none => none
  | some g => dateParseIso (isoOfGroups g)

/-- Direct interpretation of matched timestamp groups as calendar fields,
with no intermediate ISO string: the reference for claim C9. -/
def tsGroupsToMs (g : TsGroups) : Option Int :=
  let y := d4 g.y1 g.y2 g.y3 g.y4
  let mo := d2 g.mo1 g.mo2
  let d := d2 g.dd1 g.dd2
  let h := d2 g.h1 g.h2
  let mi := d2 g.n1 g.n2
  let sec := d2 g.s1 g.s2
  let ms := d3 g.u1 g.u2 g.u3
  if validDateParts y mo d && validTimeParts h mi sec ms then
    some (epochMsOfParts y mo d h mi sec ms)
  else none

end ConversationRetro

namespace ConversationRetro

/-! ## Record discovery and filtering

Models of `readSessionHeader` (lines 195-206), the candidate filter loop of
`getConversationCandidates` (lines 461-499) and the `allRecentInRepo`
re-scan of the handler (lines 606-612).  Filesystem reads are abstracted:
a `SessionFile` carries the facts the program reads about one scanned file
(path, `mtimeMs`, parsed first line), and an `Fs` carries the scanner's
file list plus the set of summary paths for which `existsSync` is true. -/

/-- The parsed first line of a session file, as far as the program inspects
it; `none` models an unreadable file or a first line that fails `JSON.parse`. -/
structure SessionHeader where
  type? : Option String
  cwd? : Option String
deriving DecidableEq

/-- One scanned session file together with the filesystem facts the program
reads about it. -/
structure SessionFile where
  path : String
  mtimeMs : Int
  header? : Option SessionHeader
deriving DecidableEq

/-- Snapshot of the filesystem state the discovery phase consumes. -/
structure Fs where
  files : List SessionFile
  existingSummaries : List String
deriving DecidableEq

/-- Model of `readSessionHeader` (lines 195-206): keep the parsed header only when its
`type` is `"session"` and its `cwd` is a string. -/
def readSessionHeader (f : SessionFile) : Option SessionHeader :=
  match f.header? with
  | none => none
  | some h => if h.type? ≠ some "session" ∨ h.cwd? = none then none else some h

/-- The truthy `cwd` of an optional header: `header?.cwd` is JS-falsy for a
missing header, a missing `cwd` and the empty string. -/
def headerCwd (h? : Option SessionHeader) : Option String :=
  match h? with
  | none => none
  | some h =>
    match h.cwd? with
    | none => none
    | some c => if c = "" then none else some c

/-- Line 473: creation timestamp with modification-time fallback. -/
def sessionCreatedAt (f : SessionFile) : Int :=
  (parseCreatedAtFromSessionFileName f.path).getD f.mtimeMs

/-- Line 481: `path.join(outputDir, sessionFileName + ".md")`. -/
def summaryPathOf (outputDir : String) (p : String) : String :=
  outputDir ++ "/" ++ basenameJsonl p ++ ".md"

/-- One discovered unit of work (lines 33-39). -/
structure ConversationCandidate where
  sessionPath : String
  sessionFileName : String
  sessionCreatedAtMs : Int
  sessionCwd : String
  summaryPath : String
deriving DecidableEq

/-- The filter loop of `getConversationCandidates` (lines 472-495): kept
candidates in scan order paired with the skipped-existing count. -/
def gatherCandidates (repoRoot outputDir : String) (cutoffMs : Int)
    (existing : List String) : List SessionFile → List ConversationCandidate × Nat
  | [] => ([], 0)
  | f :: rest =>
    let step := gatherCandidates repoRoot outputDir cutoffMs existing rest
    let createdAt := sessionCreatedAt f
    if createdAt < cutoffMs then step
    else
      match headerCwd (readSessionHeader f) with
      | none => step
      | some cwd =>
        if ¬ isPathInside cwd repoRoot then step
        else
          let summaryPath := summaryPathOf outputDir f.path
          if summaryPath ∈ existing then (step.1, step.2 + 1)
          else
            ({ sessionPath := f.path, sessionFileName := basenameJsonl f.path,
               sessionCreatedAtMs := createdAt, sessionCwd := cwd,
               summaryPath := summaryPath } :: step.1, step.2)

/-- Ascending comparison on creation timestamps (the line 497 comparator). -/
def leC (a b : ConversationCandidate) : Prop :=
  a.sessionCreatedAtMs ≤ b.sessionCreatedAtMs

instance : DecidableRel leC := fun a b => by
  unfold leC
  infer_instance

/-- Stable insertion into a list sorted by creation timestamp. -/
def insertByCreated (c : ConversationCandidate) :
    List ConversationCandidate → List ConversationCandidate
  | [] => [c]
  | d :: rest =>
    if c.sessionCreatedAtMs ≤ d.sessionCreatedAtMs then c :: d :: rest
    else d :: insertByCreated c rest

/-- Model of line 497's stable ascending sort
(`candidates.sort((a, b) => a.sessionCreatedAt.getTime() - b...)`). -/
def sortByCreated : List ConversationCandidate → List ConversationCandidate
  | [] => []
  | c :: rest => insertByCreated c (sortByCreated rest)

/-- Model of `getConversationCandidates` (lines 461-499): filtered candidates sorted
ascending by creation timestamp, plus the skipped-existing count. -/
def getConversationCandidates (fs : Fs) (repoRoot outputDir : String) (cutoffMs : Int) :
    List ConversationCandidate × Nat :=
  let g := gatherCandidates repoRoot outputDir cutoffMs fs.existingSummaries fs.files
  (sortByCreated g.1, g.2)

/-- The handler's `allRecentInRepo` re-scan (lines 606-612): every in-scope
file, with no existing-summary dedup. -/
def allRecentInRepo (fs : Fs) (repoRoot : String) (cutoffMs : Int) : List SessionFile :=
  fs.files.filter fun f =>
    decide (cutoffMs ≤ sessionCreatedAt f) &&
      (match headerCwd (readSessionHeader f) with
       | none => false
       | some cwd => isPathInside cwd repoRoot)

/-- Line 615: `options.limit ? candidates.slice(0, options.limit) :
candidates`; `limit` is JS-falsy when absent or zero. -/
def limitedCandidates (limit : Option Nat) (cs : List ConversationCandidate) :
    List ConversationCandidate :=
  match limit with
  | none => cs
  | some n => if n = 0 then cs else cs.take n

/-- The three progress counts assigned by the handler's discovery section
(lines 617-619): `totalInScope`, `totalSkippedExisting`, `totalToAnalyze`. -/
def discoveryProgressCounts (fs : Fs) (repoRoot outputDir : String) (cutoffMs : Int)
    (limit : Option Nat) : Nat × Nat × Nat :=
  let r := getConversationCandidates fs repoRoot outputDir cutoffMs
  ((allRecentInRepo fs repoRoot cutoffMs).length, r.2, (limitedCandidates limit r.1).length)

end ConversationRetro

namespace ConversationRetro

/-! ## Sorting lemmas and claims C8, C9 -/

theorem mem_insertByCreated {x c : ConversationCandidate} :
    ∀ {l : List ConversationCandidate}, x ∈ insertByCreated c l → x = c ∨ x ∈ l := by
  intro l
  induction l with
  | nil => intro h; simp [insertByCreated] at h; exact Or.inl h
  | cons d rest ih =>
    intro h
    unfold insertByCreated at h
    by_cases hc : c.sessionCreatedAtMs ≤ d.sessionCreatedAtMs
    · simp [hc] at h
      rcases h with h | h | h
      · exact Or.inl h
      · exact Or.inr (List.mem_cons.mpr (Or.inl h))
      · exact Or.inr (List.mem_cons.mpr (Or.inr h))
    · simp [hc] at h
      rcases h with h | h
      · exact Or.inr (List.mem_cons.mpr (Or.inl h))
      · rcases ih h with h1 | h1
        · exact Or.inl h1
        · exact Or.inr (List.mem_cons.mpr (Or.inr h1))

theorem pairwise_insertByCreated {c : ConversationCandidate} :
    ∀ {l : List ConversationCandidate}, l.Pairwise leC → (insertByCreated c l).Pairwise leC := by
  intro l
  induction l with
  | nil => intro _; simp [insertByCreated, List.Pairwise]
  | cons d rest ih =>
    intro h
    rcases List.pairwise_cons.mp h with ⟨hd, hrest⟩
    unfold insertByCreated
    by_cases hc : c.sessionCreatedAtMs ≤ d.sessionCreatedAtMs
    · simp only [hc, if_true]
      refine List.pairwise_cons.mpr ⟨?_, h⟩
      intro x hx
      rcases List.mem_cons.mp hx with h1 | h1
      · exact h1 ▸ hc
      · exact le_trans hc (hd x h1)
    · simp only [hc, if_false]
      refine List.pairwise_cons.mpr ⟨?_, ih hrest⟩
      intro x hx
      rcases mem_insertByCreated hx with h1 | h1
      · exact h1 ▸ le_of_lt (lt_of_not_le hc)
      · exact hd x h1

theorem sortByCreated_pairwise : ∀ (l : List ConversationCandidate),
    (sortByCreated l).Pairwise leC := by
  intro l
  induction l with
  | nil => simp [sortByCreated]
  | cons c rest ih => exact pairwise_insertByCreated ih

/-- Claim C9: the creation timestamp is derived from the leading segment of
the basename before the first underscore exactly when that segment matches
`YYYY-MM-DDTHH-MM-SS-mmmZ` and, reinterpreted as ISO-8601 with `:` in the
time portion, denotes a valid instant; the code's string round trip equals
the direct interpretation of the digit groups, a non-matching or
non-parsing name yields no timestamp, and the caller falls back to the
file's modification time. -/
theorem parseCreatedAtFromSessionFileName_spec (filePath : String) (f : SessionFile) :
    parseCreatedAtFromSessionFileName filePath
      = (matchTimestampName (leadingSegment filePath)).bind tsGroupsToMs
  ∧ (matchTimestampName (leadingSegment filePath) = none →
      parseCreatedAtFromSessionFileName filePath = none)
  ∧ sessionCreatedAt f = (parseCreatedAtFromSessionFileName f.path).getD f.mtimeMs := by
  have hmain : parseCreatedAtFromSessionFileName filePath
      = (matchTimestampName (leadingSegment filePath)).bind tsGroupsToMs := by
    unfold parseCreatedAtFromSessionFileName
    cases hm : matchTimestampName (leadingSegment filePath) with
    | none => rfl
    | some g =>
      simp only [Option.bind_some]
      unfold matchTimestampName at hm
      split at hm
      · rename_i hlist
        split at hm
        · rename_i hdig
          have hg := Option.some.inj hm
          subst hg
          simp only [dateParseIso, isoOfGroups, tsGroupsToMs, hdig, if_true]
          rfl
        · exact Option.noConfusion hm
      · exact Option.noConfusion hm
  refine ⟨hmain, ?_, rfl⟩
  intro hnone
  rw [hmain, hnone]
  rfl

/-- Witness for claim C9 at a concrete matching name and a concrete
non-matching file that falls back to `mtimeMs`. -/
theorem parseCreatedAtFromSessionFileName_spec_witness :
    parseCreatedAtFromSessionFileName "/s/2024-01-02T03-04-05-678Z_a.jsonl" = some 1704164645678
  ∧ sessionCreatedAt ⟨"/s/nope.jsonl", 42, none⟩ = 42 := by
  have h := parseCreatedAtFromSessionFileName_spec "/s/2024-01-02T03-04-05-678Z_a.jsonl"
    ⟨"/s/nope.jsonl", 42, none⟩
  refine ⟨?_, ?_⟩
  · rw [h.1]; decide
  · rw [h.2.2]; decide

/-- Claim C8: after filtering, candidates are sorted by creation timestamp
ascending; a positive limit hands the worker pool the first `limit` entries
of that sorted list (a prefix of it); and the in-scope and skipped-existing
counts are computed over the uncapped set, unaffected by the limit. -/
theorem candidates_sorted_capped (fs : Fs) (repoRoot outputDir : String) (cutoffMs : Int)
    (limit : Nat) (hl : 0 < limit) :
    (getConversationCandidates fs repoRoot outputDir cutoffMs).1.Pairwise leC
  ∧ limitedCandidates (some limit) (getConversationCandidates fs repoRoot outputDir cutoffMs).1
      = (getConversationCandidates fs repoRoot outputDir cutoffMs).1.take limit
  ∧ limitedCandidates (some limit) (getConversationCandidates fs repoRoot outputDir cutoffMs).1
      <+: (getConversationCandidates fs repoRoot outputDir cutoffMs).1
  ∧ (∀ limit' : Option Nat,
      (discoveryProgressCounts fs repoRoot outputDir cutoffMs limit').1
        = (allRecentInRepo fs repoRoot cutoffMs).length
    ∧ (discoveryProgressCounts fs repoRoot outputDir cutoffMs limit').2.1
        = (getConversationCandidates fs repoRoot outputDir cutoffMs).2) := by
  have hlim : limitedCandidates (some limit)
      (getConversationCandidates fs repoRoot outputDir cutoffMs).1
      = (getConversationCandidates fs repoRoot outputDir cutoffMs).1.take limit := by
    simp [limitedCandidates, Nat.pos_iff_ne_zero.mp hl]
  refine ⟨?_, hlim, ?_, fun _ => ⟨rfl, rfl⟩⟩
  · exact sortByCreated_pairwise _
  · rw [hlim]
    exact List.take_prefix limit _

/-- Witness for claim C8: two in-scope files scanned newest-first come out
oldest-first, and a limit of 1 keeps only the older one. -/
theorem candidates_sorted_capped_witness :
    (0 : Nat) < 1
  ∧ (getConversationCandidates
        ⟨[⟨"/h/b.jsonl", 9, some ⟨some "session", some "/r"⟩⟩,
          ⟨"/h/a.jsonl", 5, some ⟨some "session", some "/r"⟩⟩], []⟩
        "/r" "/o" 0).1.Pairwise leC
  ∧ limitedCandidates (some 1)
      (getConversationCandidates
        ⟨[⟨"/h/b.jsonl", 9, some ⟨some "session", some "/r"⟩⟩,
          ⟨"/h/a.jsonl", 5, some ⟨some "session", some "/r"⟩⟩], []⟩
        "/r" "/o" 0).1
      = (getConversationCandidates
        ⟨[⟨"/h/b.jsonl", 9, some ⟨some "session", some "/r"⟩⟩,
          ⟨"/h/a.jsonl", 5, some ⟨some "session", some "/r"⟩⟩], []⟩
        "/r" "/o" 0).1.take 1 := by
  have h := candidates_sorted_capped
    ⟨[⟨"/h/b.jsonl", 9, some ⟨some "session", some "/r"⟩⟩,
      ⟨"/h/a.jsonl", 5, some ⟨some "session", some "/r"⟩⟩], []⟩
    "/r" "/o" 0 1 (by decide)
  exact ⟨by decide, h.1, h.2.1⟩

end ConversationRetro

namespace ConversationRetro

/-! ## Process supervisor

`runPiCommand` (lines 403-453) wraps a spawned process in a promise that
always resolves.  Its behaviour is fully determined by its event handlers
over the closure state `(stdout, stderr, killed)`; the handlers are
embedded below as functions of that state.  Every handler is total, so the
promise resolution is always a well-defined `RunPiResult` — the model has
no throwing path. -/

/-- Structured result of one supervised `pi` invocation (lines 62-67). -/
structure RunPiResult where
  stdout : String
  stderr : String
  exitCode : Int
  killed : Bool
deriving DecidableEq

/-- The local mutable closure state of one `runPiCommand` invocation
(lines 423-425): accumulated streams and the `killed` flag. -/
structure ProcState where
  stdout : String
  stderr : String
  killed : Bool
deriving DecidableEq

/-- Initial supervisor state (`stdout = ""`, `stderr = ""`, `killed = false`). -/
def runPiInit : ProcState := ⟨"", "", false⟩

/-- The `proc.stdout.on("data")` handler (lines 435-437). -/
def onStdoutData (st : ProcState) (chunk : String) : ProcState :=
  { st with stdout := st.stdout ++ chunk }

/-- The `proc.stderr.on("data")` handler (lines 439-441). -/
def onStderrData (st : ProcState) (chunk : String) : ProcState :=
  { st with stderr := st.stderr ++ chunk }

/-- The timeout handler (lines 427-433): set `killed` before signalling the
process (the SIGTERM/SIGKILL escalation itself is OS-side and out of the
state). -/
def onTimeoutFire (st : ProcState) : ProcState := { st with killed := true }

/-- The `proc.on("close")` handler (lines 443-446): resolve with the captured
streams, `code ?? 0`, and the current `killed` flag. -/
def onClose (st : ProcState) (code : Option Int) : RunPiResult :=
  ⟨st.stdout, st.stderr, code.getD 0, st.killed⟩

/-- The `proc.on("error")` handler (lines 448-451): resolve with exit code 1,
the spawn error text appended to stderr and trimmed, and a literal
`killed: true`. -/
def onSpawnError (st : ProcState) (error : String) : RunPiResult :=
  ⟨st.stdout, jsTrim (st.stderr ++ "\n" ++ error), 1, true⟩

/-- Claim C2 counterexample: when the timeout has fired (`killed = true`)
and the process closes with a `null` exit code, the resolved result still
normalizes the exit code to 0 — the normalization is not restricted to
non-killed processes. -/
theorem onClose_normalizes_null_code_when_killed :
    (onClose (onTimeoutFire runPiInit) none).exitCode = 0
  ∧ (onClose (onTimeoutFire runPiInit) none).killed = true := by decide

/-- Claim C2 (amended): `runPiCommand` never rejects — every resolution path
is a total function of the handler state.  A spawn error resolves with the
synthetic nonzero exit code 1 and the spawn error text appended to the
captured stderr; process exit resolves with `code ?? 0`, so a missing/null
exit code is normalized to 0 regardless of the `killed` flag, and a killed
process's failure is conveyed by the `killed` flag alone. -/
theorem runPiCommand_resolution_spec (st : ProcState) (e : String) (code : Option Int) :
    (onSpawnError st e).exitCode = 1
  ∧ (onSpawnError st e).exitCode ≠ 0
  ∧ (onSpawnError st e).stderr = jsTrim (st.stderr ++ "\n" ++ e)
  ∧ (onClose st code).exitCode = code.getD 0
  ∧ (onClose st code).killed = st.killed
  ∧ (code = none → (onClose st code).exitCode = 0) := by
  refine ⟨rfl, one_ne_zero, rfl, rfl, rfl, ?_⟩
  intro h
  rw [h]
  rfl

/-- Witness for the amended claim C2 at a concrete state, spawn error and
null exit code. -/
theorem runPiCommand_resolution_spec_witness :
    (onSpawnError runPiInit "spawn pi ENOENT").exitCode = 1
  ∧ (onSpawnError runPiInit "spawn pi ENOENT").stderr = "spawn pi ENOENT"
  ∧ (onClose runPiInit none).exitCode = 0 := by
  have h := runPiCommand_resolution_spec runPiInit "spawn pi ENOENT" none
  refine ⟨h.1, ?_, h.2.2.2.2.2 rfl⟩
  rw [h.2.2.1]
  decide

/-- Claim C10: a spawn error resolves with `killed = true` even though no
timeout expired and no signal was sent — the handler writes a literal
`true`, independent of the timeout flag, so `killed = true` does not imply
the timeout escalation ran. -/
theorem onSpawnError_sets_killed (st : ProcState) (e : String) :
    (onSpawnError st e).killed = true
  ∧ runPiInit.killed = false
  ∧ (onSpawnError runPiInit e).killed = true :=
  ⟨rfl, rfl, rfl⟩

/-! ## Per-record analysis (claim C3) -/

/-- Model of `truncateMiddle` (lines 217-221); only ever called with the default
`max = 600`, for which `half = 290 > 0`. -/
def truncateMiddle (input : String) (max : Nat := 600) : String :=
  if input.length ≤ max then input
  else
    ⟨input.data.take ((max - 20) / 2)⟩ ++ "\n\n...[truncated]...\n\n"
      ++ ⟨input.data.drop (input.data.length - (max - 20) / 2)⟩

/-- JS `a || b` on strings: the empty string is falsy. -/
def jsOr (a b : String) : String := if a = "" then b else a

/-- Record `AnalysisResult` (lines 41-45). -/
structure AnalysisResult where
  candidate : ConversationCandidate
  success : Bool
  error? : Option String
deriving DecidableEq

/-- Model of `analyzeConversation` (lines 501-547).  The supervised process outcome
is the given `RunPiResult`; the `writeFileSync` of the summary to
`candidate.summaryPath` is abstracted as `writeErr?` (`none` on success,
the thrown error text on failure) and is only attempted on the success
path. -/
def analyzeConversation (candidate : ConversationCandidate) (result : RunPiResult)
    (writeErr? : Option String) : AnalysisResult :=
  if result.exitCode ≠ 0 ∨ result.killed then
    { candidate := candidate, success := false,
      error? := some (truncateMiddle (jsOr result.stderr (jsOr result.stdout
        ("pi exited with code " ++ toString result.exitCode)))) }
  else if jsTrim result.stdout = "" then
    { candidate := candidate, success := false,
      error? := some "Subagent returned empty output" }
  else
    match writeErr? with
    | some err =>
      { candidate := candidate, success := false,
        error? := some ("Failed writing summary: " ++ err) }
    | none => { candidate := candidate, success := true, error? := none }

/-- Claim C3: the analysis succeeds exactly when the process exited with
status zero, was not killed, produced non-empty trimmed stdout, and the
summary write succeeded; in every other case `success` is false and the
error field carries diagnostic text. -/
theorem analyzeConversation_success_iff (candidate : ConversationCandidate)
    (result : RunPiResult) (writeErr? : Option String) :
    ((analyzeConversation candidate result writeErr?).success = true ↔
      (result.exitCode = 0 ∧ result.killed = false ∧ jsTrim result.stdout ≠ ""
        ∧ writeErr? = none))
  ∧ ((analyzeConversation candidate result writeErr?).error?.isSome
      = !(analyzeConversation candidate result writeErr?).success)
  ∧ (analyzeConversation candidate result writeErr?).candidate = candidate := by
  unfold analyzeConversation
  split_ifs with h1 h2
  · refine ⟨?_, rfl, rfl⟩
    simp only [Bool.false_eq_true, false_iff]
    rintro ⟨hcz, hk, -, -⟩
    rcases h1 with h | h
    · exact h hcz
    · rw [hk] at h
      exact Bool.noConfusion h
  · refine ⟨?_, rfl, rfl⟩
    simp only [Bool.false_eq_true, false_iff]
    rintro ⟨-, -, hne, -⟩
    exact hne h2
  · have hcz : result.exitCode = 0 := by
      by_contra hne
      exact h1 (Or.inl hne)
    have hk : result.killed = false := by
      cases hbk : result.killed with
      | false => rfl
      | true => exact absurd (Or.inr hbk) h1
    cases writeErr? with
    | some err =>
      refine ⟨?_, rfl, rfl⟩
      simp
    | none =>
      refine ⟨?_, rfl, rfl⟩
      simp [hcz, hk, h2]

/-- Witness for claim C3: a clean exit with output and a successful write is
a success; a killed process is a failure with diagnostic text. -/
theorem analyzeConversation_success_iff_witness :
    (analyzeConversation ⟨"/h/a.jsonl", "a", 5, "/r", "/o/a.md"⟩ ⟨"ok", "", 0, false⟩ none).success
      = true
  ∧ (analyzeConversation ⟨"/h/a.jsonl", "a", 5, "/r", "/o/a.md"⟩
      ⟨"", "", 0, true⟩ none).error?.isSome = true := by
  have h1 := analyzeConversation_success_iff ⟨"/h/a.jsonl", "a", 5, "/r", "/o/a.md"⟩
    ⟨"ok", "", 0, false⟩ none
  have h2 := analyzeConversation_success_iff ⟨"/h/a.jsonl", "a", 5, "/r", "/o/a.md"⟩
    ⟨"", "", 0, true⟩ none
  refine ⟨h1.1.mpr ⟨rfl, rfl, by decide, rfl⟩, ?_⟩
  rw [h2.2.1]
  decide

end ConversationRetro

namespace ConversationRetro

/-! ## Bounded worker pool

`runWithConcurrency` (lines 549-576) starts `safeConcurrency` claim loops
over a shared cursor.  JavaScript concurrency is cooperative, so a run is an
interleaving of atomic events: an idle loop claims `index = cursor++`
(invoking `onItemStart` when the claim is in range, exiting the loop
otherwise), and a working loop's awaited worker returns (storing
`results[index]` and invoking `onItemDone`).  The model is a step relation
over that state; `f i` stands for the value of `worker(items[i], i)`.
For `items.length = 0` the function returns `[]` on line 556 before any
loop starts; in the model no event is ever emitted in that case. -/

/-- Effective concurrency `Math.max(1, Math.min(concurrency, items.length))` (line 558). -/
def safeConcurrency (concurrency n : Nat) : Nat := max 1 (min concurrency n)

/-- The state of one claim loop. -/
inductive LoopSt where
  | idle : LoopSt
  | working : Nat → LoopSt
  | exited : LoopSt
deriving DecidableEq

/-- Observable callback invocations of the pool: `onItemStart i` and
`onItemDone i`. -/
inductive PoolEv where
  | start : Nat → PoolEv
  | done : Nat → PoolEv
deriving DecidableEq

/-- Pool state: shared cursor, loop slots, results array and callback trace. -/
structure PoolState (β : Type) where
  cursor : Nat
  loops : List LoopSt
  results : Nat → Option β
  events : List PoolEv

/-- Initial state: cursor 0, `k` idle loops, no results, no events. -/
def poolInit (β : Type) (k : Nat) : PoolState β :=
  ⟨0, List.replicate k .idle, fun _ => none, []⟩

/-- One atomic step of the claim loops (lines 562-572). -/
inductive PoolStep (n : Nat) {β : Type} (f : Nat → β) : PoolState β → PoolState β → Prop where
  | claim (s : PoolState β) (j : Nat) (hj : s.loops.get? j = some .idle) (hc : s.cursor < n) :
      PoolStep n f s ⟨s.cursor + 1, s.loops.set j (.working s.cursor), s.results,
        s.events ++ [.start s.cursor]⟩
  | exitLoop (s : PoolState β) (j : Nat) (hj : s.loops.get? j = some .idle) (hc : n ≤ s.cursor) :
      PoolStep n f s ⟨s.cursor + 1, s.loops.set j .exited, s.results, s.events⟩
  | finish (s : PoolState β) (j i : Nat) (hj : s.loops.get? j = some (.working i)) :
      PoolStep n f s ⟨s.cursor, s.loops.set j .idle,
        Function.update s.results i (some (f i)), s.events ++ [.done i]⟩

/-- States reachable by a pool of `k` loops over `n` items. -/
def PoolReachable (n : Nat) {β : Type} (f : Nat → β) (k : Nat) (s : PoolState β) : Prop :=
  Relation.ReflTransGen (PoolStep n f) (poolInit β k) s

/-- All loops have exited: `Promise.all(loops)` has resolved. -/
def PoolTerminal {β : Type} (s : PoolState β) : Prop :=
  ∀ st ∈ s.loops, st = LoopSt.exited

/-- A loop slot currently holds a claim. -/
def isWorkSt : LoopSt → Bool
  | .working _ => true
  | _ => false

/-- Number of simultaneously claimed slots. -/
def workingCount (l : List LoopSt) : Nat := l.countP isWorkSt

def isStartEv : PoolEv → Bool
  | .start _ => true
  | _ => false

def isDoneEv : PoolEv → Bool
  | .done _ => true
  | _ => false

/-- Occurrences of `onItemStart i` in the trace. -/
def countStart (evs : List PoolEv) (i : Nat) : Nat :=
  evs.countP fun e => decide (e = PoolEv.start i)

/-- Occurrences of `onItemDone i` in the trace. -/
def countDone (evs : List PoolEv) (i : Nat) : Nat :=
  evs.countP fun e => decide (e = PoolEv.done i)

/-- Number of loops currently working on index `i`. -/
def countWork (l : List LoopSt) (i : Nat) : Nat :=
  l.countP fun st => decide (st = LoopSt.working i)

/-- Number of loops that have exited. -/
def countExited (l : List LoopSt) : Nat :=
  l.countP fun st => decide (st = LoopSt.exited)

theorem countP_replicate {α : Type} (p : α → Bool) (k : Nat) (a : α) :
    (List.replicate k a).countP p = if p a then k else 0 := by
  induction k with
  | zero => simp
  | succ k ih =>
    simp only [List.replicate_succ, List.countP_cons, ih]
    by_cases h : p a <;> simp [h] <;> omega

theorem countP_set {α : Type} (p : α → Bool) :
    ∀ (l : List α) (j : Nat) (a b : α), l.get? j = some a →
      (l.set j b).countP p + (if p a then 1 else 0)
        = l.countP p + (if p b then 1 else 0) := by
  intro l
  induction l with
  | nil => intro j a b h; simp at h
  | cons x xs ih =>
    intro j a b h
    cases j with
    | zero =>
      simp only [List.get?_cons_zero, Option.some.injEq] at h
      subst h
      simp only [List.set_cons_zero, List.countP_cons]
      omega
    | succ j' =>
      simp only [List.get?_cons_succ] at h
      simp only [List.set_cons_succ, List.countP_cons]
      have := ih j' a b h
      omega

end ConversationRetro

namespace ConversationRetro

theorem countP_set_eq {α : Type} (p : α → Bool) {l : List α} {j : Nat} {a b : α}
    (h : l.get? j = some a) (ha : p a = false) (hb : p b = false) :
    (l.set j b).countP p = l.countP p := by
  have := countP_set p l j a b h
  simp [ha, hb] at this
  exact this

theorem countP_set_incr {α : Type} (p : α → Bool) {l : List α} {j : Nat} {a b : α}
    (h : l.get? j = some a) (ha : p a = false) (hb : p b = true) :
    (l.set j b).countP p = l.countP p + 1 := by
  have := countP_set p l j a b h
  simp [ha, hb] at this
  exact this

theorem countP_set_decr {α : Type} (p : α → Bool) {l : List α} {j : Nat} {a b : α}
    (h : l.get? j = some a) (ha : p a = true) (hb : p b = false) :
    (l.set j b).countP p + 1 = l.countP p := by
  have := countP_set p l j a b h
  simp [ha, hb] at this
  omega

theorem countStart_append_one (evs : List PoolEv) (e : PoolEv) (i : Nat) :
    countStart (evs ++ [e]) i
      = countStart evs i + (if e = PoolEv.start i then 1 else 0) := by
  simp [countStart, List.countP_append, List.countP_cons]

theorem countDone_append_one (evs : List PoolEv) (e : PoolEv) (i : Nat) :
    countDone (evs ++ [e]) i
      = countDone evs i + (if e = PoolEv.done i then 1 else 0) := by
  simp [countDone, List.countP_append, List.countP_cons]

theorem countWork_pos_of_get {l : List LoopSt} {j i : Nat}
    (h : l.get? j = some (.working i)) : 0 < countWork l i := by
  have hm : LoopSt.working i ∈ l := List.get?_mem h
  exact List.countP_pos.mpr ⟨_, hm, by simp⟩

theorem start_mem_of_countStart_pos {evs : List PoolEv} {i : Nat}
    (h : 0 < countStart evs i) : PoolEv.start i ∈ evs := by
  rcases List.countP_pos.mp h with ⟨e, hm, he⟩
  simp at he
  exact he ▸ hm

/-- Inductive invariant of the pool: callback counts, claim bookkeeping,
result contents and callback ordering. -/
structure PoolInv (n : Nat) {β : Type} (f : Nat → β) (k : Nat) (s : PoolState β) : Prop where
  len : s.loops.length = k
  startCount : ∀ i, countStart s.events i = if i < n ∧ i < s.cursor then 1 else 0
  doneCount : ∀ i, countDone s.events i
      = if i < n ∧ i < s.cursor then (if countWork s.loops i = 0 then 1 else 0) else 0
  workDistinct : ∀ i, countWork s.loops i ≤ 1
  workBound : ∀ i, 0 < countWork s.loops i → i < n ∧ i < s.cursor
  exitedBound : 0 < countExited s.loops → n ≤ s.cursor
  resEq : ∀ i, s.results i = if countDone s.events i = 1 then some (f i) else none
  orderOK : ∀ i, countDone s.events i = 1 →
      [PoolEv.start i, PoolEv.done i].Sublist s.events
  startLen : s.events.countP isStartEv = min s.cursor n
  doneLen : s.events.countP isDoneEv + workingCount s.loops = min s.cursor n

theorem poolInv_init (n : Nat) {β : Type} (f : Nat → β) (k : Nat) :
    PoolInv n f k (poolInit β k) := by
  refine ⟨?_, ?_, ?_, ?_, ?_, ?_, ?_, ?_, ?_, ?_⟩ <;>
    simp [poolInit, countStart, countDone, countWork, countExited, workingCount,
      countP_replicate, isWorkSt]

theorem poolInv_claim {n k : Nat} {β : Type} {f : Nat → β} {s : PoolState β} {j : Nat}
    (inv : PoolInv n f k s) (hj : s.loops.get? j = some .idle) (hc : s.cursor < n) :
    PoolInv n f k ⟨s.cursor + 1, s.loops.set j (.working s.cursor), s.results,
      s.events ++ [.start s.cursor]⟩ := by
  have hw0 : countWork s.loops s.cursor = 0 := by
    by_contra hne
    have := inv.workBound s.cursor (Nat.pos_of_ne_zero hne)
    omega
  have hwset : ∀ i, countWork (s.loops.set j (.working s.cursor)) i
      = countWork s.loops i + (if s.cursor = i then 1 else 0) := by
    intro i
    have h := countP_set (fun st => decide (st = LoopSt.working i)) s.loops j
      .idle (.working s.cursor) hj
    by_cases hci : s.cursor = i
    · simp [countWork, hci] at h ⊢
      omega
    · simp [countWork, LoopSt.working.injEq, hci] at h ⊢
      omega
  have hexset : countExited (s.loops.set j (.working s.cursor)) = countExited s.loops :=
    countP_set_eq _ hj (by simp) (by simp)
  have hdone : ∀ i, countDone (s.events ++ [.start s.cursor]) i = countDone s.events i := by
    intro i
    rw [countDone_append_one]
    simp
  refine ⟨?_, ?_, ?_, ?_, ?_, ?_, ?_, ?_, ?_, ?_⟩ <;> dsimp only
  · simpa [List.length_set] using inv.len
  · intro i
    rw [countStart_append_one, inv.startCount i]
    simp only [PoolEv.start.injEq]
    split_ifs <;> omega
  · intro i
    rw [hdone i, inv.doneCount i, hwset i]
    split_ifs <;> first | omega | simp_all
  · intro i
    have := inv.workDistinct i
    rw [hwset i]
    by_cases hci : s.cursor = i
    · rw [← hci] at this ⊢
      simp [hw0]
    · simp [hci, this]
  · intro i hpos
    rw [hwset i] at hpos
    by_cases hci : s.cursor = i
    · omega
    · have := inv.workBound i (by simpa [hci] using hpos)
      omega
  · intro hpos
    rw [hexset] at hpos
    have := inv.exitedBound hpos
    omega
  · intro i
    rw [hdone i]
    exact inv.resEq i
  · intro i hi
    rw [hdone i] at hi
    exact (inv.orderOK i hi).trans (List.sublist_append_left _ _)
  · rw [List.countP_append]
    have : List.countP isStartEv [PoolEv.start s.cursor] = 1 := by simp [isStartEv]
    rw [this, inv.startLen]
    omega
  · rw [List.countP_append]
    have h1 : List.countP isDoneEv [PoolEv.start s.cursor] = 0 := by simp [isDoneEv]
    have h2 : workingCount (s.loops.set j (.working s.cursor)) = workingCount s.loops + 1 :=
      countP_set_incr _ hj (by simp [isWorkSt]) (by simp [isWorkSt])
    rw [h1, h2]
    have := inv.doneLen
    omega

end ConversationRetro

namespace ConversationRetro

theorem poolInv_exitLoop {n k : Nat} {β : Type} {f : Nat → β} {s : PoolState β} {j : Nat}
    (inv : PoolInv n f k s) (hj : s.loops.get? j = some .idle) (hc : n ≤ s.cursor) :
    PoolInv n f k ⟨s.cursor + 1, s.loops.set j .exited, s.results, s.events⟩ := by
  have hwset : ∀ i, countWork (s.loops.set j .exited) i = countWork s.loops i := by
    intro i
    exact countP_set_eq _ hj (by simp) (by simp)
  have hwc : workingCount (s.loops.set j .exited) = workingCount s.loops :=
    countP_set_eq _ hj (by simp [isWorkSt]) (by simp [isWorkSt])
  refine ⟨?_, ?_, ?_, ?_, ?_, ?_, ?_, ?_, ?_, ?_⟩ <;> dsimp only
  · simpa [List.length_set] using inv.len
  · intro i
    rw [inv.startCount i]
    split_ifs <;> first | omega | simp_all
  · intro i
    rw [inv.doneCount i, hwset i]
    split_ifs <;> first | omega | simp_all
  · intro i
    rw [hwset i]
    exact inv.workDistinct i
  · intro i hpos
    rw [hwset i] at hpos
    have := inv.workBound i hpos
    omega
  · intro _
    omega
  · exact inv.resEq
  · exact inv.orderOK
  · rw [inv.startLen]
    omega
  · rw [hwc, inv.doneLen]
    omega

theorem poolInv_finish {n k : Nat} {β : Type} {f : Nat → β} {s : PoolState β} {j i0 : Nat}
    (inv : PoolInv n f k s) (hj : s.loops.get? j = some (.working i0)) :
    PoolInv n f k ⟨s.cursor, s.loops.set j .idle,
      Function.update s.results i0 (some (f i0)), s.events ++ [.done i0]⟩ := by
  have hpos : 0 < countWork s.loops i0 := countWork_pos_of_get hj
  have hone : countWork s.loops i0 = 1 := le_antisymm (inv.workDistinct i0) hpos
  have hbound := inv.workBound i0 hpos
  have hwset : ∀ i, countWork (s.loops.set j .idle) i
      = countWork s.loops i - (if i0 = i then 1 else 0) := by
    intro i
    have h := countP_set (fun st => decide (st = LoopSt.working i)) s.loops j
      (.working i0) .idle hj
    by_cases hci : i0 = i
    · subst hci
      simp [countWork] at h ⊢
      omega
    · simp [countWork, LoopSt.working.injEq, hci] at h ⊢
      omega
  have hexset : countExited (s.loops.set j .idle) = countExited s.loops :=
    countP_set_eq _ hj (by simp) (by simp)
  have hstart : ∀ i, countStart (s.events ++ [.done i0]) i = countStart s.events i := by
    intro i
    rw [countStart_append_one]
    simp
  have hdone : ∀ i, countDone (s.events ++ [.done i0]) i
      = countDone s.events i + (if i0 = i then 1 else 0) := by
    intro i
    rw [countDone_append_one]
    simp [PoolEv.done.injEq]
  have hdone0 : countDone s.events i0 = 0 := by
    rw [inv.doneCount i0]
    simp [hbound.1, hbound.2, hone]
  refine ⟨?_, ?_, ?_, ?_, ?_, ?_, ?_, ?_, ?_, ?_⟩ <;> dsimp only
  · simpa [List.length_set] using inv.len
  · intro i
    rw [hstart i]
    exact inv.startCount i
  · intro i
    rw [hdone i, inv.doneCount i, hwset i]
    by_cases hci : i0 = i
    · subst hci
      simp [hbound.1, hbound.2, hone]
    · simp only [hci, if_false]
      split_ifs <;> first | omega | simp_all | rfl
  · intro i
    rw [hwset i]
    have := inv.workDistinct i
    omega
  · intro i hp
    rw [hwset i] at hp
    exact inv.workBound i (by omega)
  · intro hp
    rw [hexset] at hp
    exact inv.exitedBound hp
  · intro i
    rw [hdone i]
    by_cases hci : i0 = i
    · subst hci
      rw [Function.update_same]
      simp [hdone0]
    · rw [Function.update_noteq (fun h => hci h.symm)]
      rw [if_neg hci, Nat.add_zero]
      exact inv.resEq i
  · intro i hi
    rw [hdone i] at hi
    by_cases hci : i0 = i
    · subst hci
      have hs : 0 < countStart s.events i0 := by
        rw [inv.startCount i0]
        simp [hbound.1, hbound.2]
      have hmem : PoolEv.start i0 ∈ s.events := start_mem_of_countStart_pos hs
      have h1 : List.Sublist [PoolEv.start i0] s.events := List.singleton_sublist.mpr hmem
      exact h1.append (List.Sublist.refl [PoolEv.done i0])
    · rw [if_neg hci, Nat.add_zero] at hi
      exact (inv.orderOK i hi).trans (List.sublist_append_left _ _)
  · rw [List.countP_append]
    have : List.countP isStartEv [PoolEv.done i0] = 0 := by simp [isStartEv]
    rw [this, inv.startLen]
    omega
  · rw [List.countP_append]
    have h1 : List.countP isDoneEv [PoolEv.done i0] = 1 := by simp [isDoneEv]
    have h2 : workingCount (s.loops.set j .idle) + 1 = workingCount s.loops :=
      countP_set_decr _ hj (by simp [isWorkSt]) (by simp [isWorkSt])
    have := inv.doneLen
    omega

/-- The invariant is preserved by every pool step. -/
theorem poolInv_step {n k : Nat} {β : Type} {f : Nat → β} {s s' : PoolState β}
    (inv : PoolInv n f k s) (hstep : PoolStep n f s s') : PoolInv n f k s' := by
  cases hstep with
  | claim j hj hc => exact poolInv_claim inv hj hc
  | exitLoop j hj hc => exact poolInv_exitLoop inv hj hc
  | finish j i hj => exact poolInv_finish inv hj

/-- Every reachable pool state satisfies the invariant. -/
theorem poolInv_reachable {n k : Nat} {β : Type} {f : Nat → β} {s : PoolState β}
    (h : PoolReachable n f k s) : PoolInv n f k s := by
  induction h with
  | refl => exact poolInv_init n f k
  | tail _ hstep ih => exact poolInv_step ih hstep

end ConversationRetro

namespace ConversationRetro

/-- Claim C1: for every item count, requested concurrency and worker value
function, along every pool run: the number of simultaneously claimed slots
never exceeds `max(1, min(C, n))`; once all loops have exited, `results[i]`
holds `worker(items[i], i)` for every `i < n` with `onItemStart` and
`onItemDone` each invoked exactly once per index and the start before the
matching done; and with zero items no callback ever fires and no result is
ever written (the function returns `[]` on line 556). -/
theorem runWithConcurrency_spec (n C : Nat) {β : Type} (f : Nat → β) (s : PoolState β)
    (hreach : PoolReachable n f (safeConcurrency C n) s) :
    workingCount s.loops ≤ safeConcurrency C n
  ∧ (PoolTerminal s → ∀ i, i < n →
      s.results i = some (f i) ∧ countStart s.events i = 1 ∧ countDone s.events i = 1
        ∧ [PoolEv.start i, PoolEv.done i].Sublist s.events)
  ∧ (n = 0 → s.events = [] ∧ ∀ i, s.results i = none) := by
  have inv := poolInv_reachable hreach
  refine ⟨?_, ?_, ?_⟩
  · calc workingCount s.loops ≤ s.loops.length := List.countP_le_length _
      _ = safeConcurrency C n := inv.len
  · intro hterm i hin
    have hk : 0 < safeConcurrency C n := by
      unfold safeConcurrency
      omega
    have hlen : 0 < s.loops.length := by
      rw [inv.len]
      exact hk
    have hne : s.loops ≠ [] := List.ne_nil_of_length_pos hlen
    obtain ⟨x, hx⟩ := List.exists_mem_of_ne_nil s.loops hne
    have hexpos : 0 < countExited s.loops :=
      List.countP_pos.mpr ⟨x, hx, by simp [hterm x hx]⟩
    have hcur : n ≤ s.cursor := inv.exitedBound hexpos
    have hw0 : countWork s.loops i = 0 := by
      by_contra h0
      obtain ⟨st, hst, hp⟩ := List.countP_pos.mp (Nat.pos_of_ne_zero h0)
      have hex := hterm st hst
      simp [hex] at hp
    have hdone1 : countDone s.events i = 1 := by
      rw [inv.doneCount i]
      simp [hin, lt_of_lt_of_le hin hcur, hw0]
    refine ⟨?_, ?_, hdone1, inv.orderOK i hdone1⟩
    · rw [inv.resEq i, hdone1]
      simp
    · rw [inv.startCount i]
      simp [hin, lt_of_lt_of_le hin hcur]
  · intro hn
    subst hn
    have hev : s.events = [] := by
      rw [List.eq_nil_iff_forall_not_mem]
      intro e he
      cases e with
      | start i =>
        have hp : 0 < countStart s.events i := List.countP_pos.mpr ⟨_, he, by simp⟩
        rw [inv.startCount i] at hp
        simp at hp
      | done i =>
        have hp : 0 < countDone s.events i := List.countP_pos.mpr ⟨_, he, by simp⟩
        rw [inv.doneCount i] at hp
        simp at hp
    refine ⟨hev, ?_⟩
    intro i
    rw [inv.resEq i]
    have h0 : countDone s.events i = 0 := by
      rw [inv.doneCount i]
      simp
    simp [h0]

/-- A concrete terminal pool state: two items, one loop, worker value `i`. -/
def poolWitnessState : PoolState Nat :=
  ⟨3, [LoopSt.exited],
   Function.update (Function.update (fun _ => none) 0 (some 0)) 1 (some 1),
   [PoolEv.start 0, PoolEv.done 0, PoolEv.start 1, PoolEv.done 1]⟩

/-- The concrete state above is reachable by a sequential schedule. -/
theorem poolWitnessReachable : PoolReachable 2 (fun i : Nat => i) 1 poolWitnessState := by
  refine Relation.ReflTransGen.head (PoolStep.claim (poolInit Nat 1) 0 rfl (by decide)) ?_
  refine Relation.ReflTransGen.head (PoolStep.finish _ 0 0 rfl) ?_
  refine Relation.ReflTransGen.head (PoolStep.claim _ 0 rfl (by decide)) ?_
  refine Relation.ReflTransGen.head (PoolStep.finish _ 0 1 rfl) ?_
  refine Relation.ReflTransGen.head (PoolStep.exitLoop _ 0 rfl (by decide)) ?_
  exact Relation.ReflTransGen.refl

/-- Witness for claim C1 at the concrete two-item run. -/
theorem runWithConcurrency_spec_witness :
    workingCount poolWitnessState.loops ≤ safeConcurrency 1 2
  ∧ poolWitnessState.results 0 = some 0
  ∧ poolWitnessState.results 1 = some 1
  ∧ countStart poolWitnessState.events 0 = 1
  ∧ countDone poolWitnessState.events 1 = 1
  ∧ [PoolEv.start 1, PoolEv.done 1].Sublist poolWitnessState.events := by
  have hterm : PoolTerminal poolWitnessState := by
    intro st hst
    simp [poolWitnessState] at hst
    exact hst
  have h := runWithConcurrency_spec 2 1 (fun i : Nat => i) poolWitnessState poolWitnessReachable
  exact ⟨h.1, (h.2.1 hterm 0 (by decide)).1, (h.2.1 hterm 1 (by decide)).1,
    (h.2.1 hterm 0 (by decide)).2.1, (h.2.1 hterm 1 (by decide)).2.2.1,
    (h.2.1 hterm 1 (by decide)).2.2.2⟩

end ConversationRetro

namespace ConversationRetro

/-! ## Progress state and the pool callbacks (claims C4, C5, C6) -/

/-- Enumeration `Phase` (line 16). -/
inductive Phase where
  | discovering : Phase
  | analyzing : Phase
  | reviewing : Phase
  | done : Phase
deriving DecidableEq

/-- Record `ProgressState` (lines 47-60). -/
structure ProgressState where
  phase : Phase
  totalInScope : Nat
  totalToAnalyze : Nat
  totalSkippedExisting : Nat
  running : Nat
  finished : Nat
  succeeded : Nat
  failed : Nat
  reviewerDone : Bool
  reportPath? : Option String
  runningItems : List String
  outputDir : String
deriving DecidableEq

/-- The progress object created on lines 588-601. -/
def initProgress (outputDir : String) : ProgressState :=
  { phase := .discovering, totalInScope := 0, totalToAnalyze := 0,
    totalSkippedExisting := 0, running := 0, finished := 0, succeeded := 0,
    failed := 0, reviewerDone := false, reportPath? := none, runningItems := [],
    outputDir := outputDir }

/-- The progress state after the discovery section assigned the counts and
moved to `analyzing` (lines 617-620). -/
def analysisStartProgress (outputDir : String) (inScope skipped toAnalyze : Nat) :
    ProgressState :=
  { initProgress outputDir with
    totalInScope := inScope,
    totalSkippedExisting := skipped,
    totalToAnalyze := toAnalyze,
    phase := .analyzing }

/-- The handler's `onItemStart` callback (lines 646-650). -/
def onItemStartCb (name : String) (p : ProgressState) : ProgressState :=
  { p with running := p.running + 1, runningItems := p.runningItems ++ [name] }

/-- The handler's `onItemDone` callback (lines 651-658);
`Math.max(0, running - 1)` coincides with truncated subtraction. -/
def onItemDoneCb (name : String) (success : Bool) (p : ProgressState) : ProgressState :=
  { p with
    running := p.running - 1,
    finished := p.finished + 1,
    runningItems := p.runningItems.filter fun m => m != name,
    succeeded := if success then p.succeeded + 1 else p.succeeded,
    failed := if success then p.failed else p.failed + 1 }

/-- Replay of the progress mutations performed by the pool callbacks along an
event trace: `names i` is `items[i].sessionFileName`, `succ i` is
`results[i].success`. -/
def applyPoolEvents (names : Nat → String) (succ : Nat → Bool) :
    ProgressState → List PoolEv → ProgressState
  | p, [] => p
  | p, PoolEv.start i :: rest => applyPoolEvents names succ (onItemStartCb (names i) p) rest
  | p, PoolEv.done i :: rest =>
      applyPoolEvents names succ (onItemDoneCb (names i) (succ i) p) rest

theorem applyPoolEvents_append_start (names : Nat → String) (succ : Nat → Bool)
    (i : Nat) : ∀ (l : List PoolEv) (p : ProgressState),
    applyPoolEvents names succ p (l ++ [PoolEv.start i])
      = onItemStartCb (names i) (applyPoolEvents names succ p l) := by
  intro l
  induction l with
  | nil => intro p; rfl
  | cons e rest ih =>
    intro p
    cases e with
    | start i' => simpa [applyPoolEvents] using ih _
    | done i' => simpa [applyPoolEvents] using ih _

theorem applyPoolEvents_append_done (names : Nat → String) (succ : Nat → Bool)
    (i : Nat) : ∀ (l : List PoolEv) (p : ProgressState),
    applyPoolEvents names succ p (l ++ [PoolEv.done i])
      = onItemDoneCb (names i) (succ i) (applyPoolEvents names succ p l) := by
  intro l
  induction l with
  | nil => intro p; rfl
  | cons e rest ih =>
    intro p
    cases e with
    | start i' => simpa [applyPoolEvents] using ih _
    | done i' => simpa [applyPoolEvents] using ih _

/-- Along every reachable pool trace, the replayed progress counters track
the pool exactly: `running` equals the number of claimed slots, `finished`
equals the number of completed items, successes and failures partition the
finished count, and the callbacks never touch `totalToAnalyze`. -/
theorem applyPoolEvents_progress {n k : Nat} {β : Type} {f : Nat → β} {s : PoolState β}
    (hreach : PoolReachable n f k s) (names : Nat → String) (succ : Nat → Bool)
    (p0 : ProgressState) (hrun : p0.running = 0) (hfin : p0.finished = 0)
    (hsucc : p0.succeeded = 0) (hfail : p0.failed = 0) :
    (applyPoolEvents names succ p0 s.events).running = workingCount s.loops
  ∧ (applyPoolEvents names succ p0 s.events).finished = s.events.countP isDoneEv
  ∧ (applyPoolEvents names succ p0 s.events).succeeded
      + (applyPoolEvents names succ p0 s.events).failed
      = (applyPoolEvents names succ p0 s.events).finished
  ∧ (applyPoolEvents names succ p0 s.events).totalToAnalyze = p0.totalToAnalyze := by
  induction hreach with
  | refl =>
    simp [poolInit, applyPoolEvents, workingCount, countP_replicate, isWorkSt,
      hrun, hfin, hsucc, hfail]
  | @tail b c hab hbc ih =>
    obtain ⟨ih1, ih2, ih3, ih4⟩ := ih
    cases hbc with
    | claim j hj hc =>
      have hwc : workingCount (b.loops.set j (.working b.cursor))
          = workingCount b.loops + 1 :=
        countP_set_incr _ hj (by simp [isWorkSt]) (by simp [isWorkSt])
      dsimp only
      rw [applyPoolEvents_append_start, hwc]
      dsimp only [onItemStartCb]
      refine ⟨by rw [ih1], ?_, ih3, ih4⟩
      rw [List.countP_append, ih2]
      have hd : List.countP isDoneEv [PoolEv.start b.cursor] = 0 := by simp [isDoneEv]
      omega
    | exitLoop j hj hc =>
      have hwc : workingCount (b.loops.set j .exited) = workingCount b.loops :=
        countP_set_eq _ hj (by simp [isWorkSt]) (by simp [isWorkSt])
      dsimp only
      rw [hwc]
      exact ⟨ih1, ih2, ih3, ih4⟩
    | finish j i hj =>
      have hwpos : 0 < workingCount b.loops :=
        List.countP_pos.mpr ⟨_, List.get?_mem hj, by simp [isWorkSt]⟩
      have hwc : workingCount (b.loops.set j .idle) + 1 = workingCount b.loops :=
        countP_set_decr _ hj (by simp [isWorkSt]) (by simp [isWorkSt])
      dsimp only
      rw [applyPoolEvents_append_done]
      dsimp only [onItemDoneCb]
      refine ⟨?_, ?_, ?_, ih4⟩
      · rw [ih1]
        omega
      · rw [List.countP_append, ih2]
        have hd : List.countP isDoneEv [PoolEv.done i] = 1 := by simp [isDoneEv]
        omega
      · by_cases hs : succ i = true <;> simp [hs] <;> omega

end ConversationRetro

namespace ConversationRetro

/-- Claim C6: at every point of the analysis phase — after initialization
and after each `onItemStart`/`onItemDone` callback mutation along any
reachable pool schedule — the progress state satisfies
`finished = succeeded + failed` and `running + finished ≤ totalToAnalyze`,
where `totalToAnalyze` is the total selected for this run. -/
theorem progress_invariant (outputDir : String) (inScope skipped C : Nat) (n : Nat)
    {β : Type} (f : Nat → β) (names : Nat → String) (succ : Nat → Bool)
    (s : PoolState β) (hreach : PoolReachable n f (safeConcurrency C n) s) :
    (applyPoolEvents names succ (analysisStartProgress outputDir inScope skipped n)
        s.events).finished
      = (applyPoolEvents names succ (analysisStartProgress outputDir inScope skipped n)
          s.events).succeeded
        + (applyPoolEvents names succ (analysisStartProgress outputDir inScope skipped n)
            s.events).failed
  ∧ (applyPoolEvents names succ (analysisStartProgress outputDir inScope skipped n)
        s.events).running
      + (applyPoolEvents names succ (analysisStartProgress outputDir inScope skipped n)
          s.events).finished
      ≤ (applyPoolEvents names succ (analysisStartProgress outputDir inScope skipped n)
          s.events).totalToAnalyze
  ∧ (applyPoolEvents names succ (analysisStartProgress outputDir inScope skipped n)
      s.events).totalToAnalyze = n := by
  have inv := poolInv_reachable hreach
  obtain ⟨h1, h2, h3, h4⟩ := applyPoolEvents_progress hreach names succ
    (analysisStartProgress outputDir inScope skipped n) rfl rfl rfl rfl
  have htot : (analysisStartProgress outputDir inScope skipped n).totalToAnalyze = n := rfl
  refine ⟨by omega, ?_, by rw [h4, htot]⟩
  rw [h1, h2, h4, htot]
  have hdl := inv.doneLen
  omega

/-- Witness for claim C6 along the concrete two-item run. -/
theorem progress_invariant_witness :
    (applyPoolEvents (fun _ => "a") (fun _ => true)
        (analysisStartProgress "/o" 2 0 2) poolWitnessState.events).finished
      = (applyPoolEvents (fun _ => "a") (fun _ => true)
          (analysisStartProgress "/o" 2 0 2) poolWitnessState.events).succeeded
        + (applyPoolEvents (fun _ => "a") (fun _ => true)
            (analysisStartProgress "/o" 2 0 2) poolWitnessState.events).failed
  ∧ (applyPoolEvents (fun _ => "a") (fun _ => true)
        (analysisStartProgress "/o" 2 0 2) poolWitnessState.events).running
      + (applyPoolEvents (fun _ => "a") (fun _ => true)
          (analysisStartProgress "/o" 2 0 2) poolWitnessState.events).finished
      ≤ (applyPoolEvents (fun _ => "a") (fun _ => true)
          (analysisStartProgress "/o" 2 0 2) poolWitnessState.events).totalToAnalyze := by
  have h := progress_invariant "/o" 2 0 1 2 (fun i : Nat => i) (fun _ => "a")
    (fun _ => true) poolWitnessState poolWitnessReachable
  exact ⟨h.1, h.2.1⟩

end ConversationRetro

namespace ConversationRetro

/-! ## The command handler (lines 582-737)

The handler is modelled as a function of its options and an environment
carrying the outcomes of its effects: the filesystem snapshot, the result
of each per-candidate `pi` invocation together with its summary-write
outcome, the post-analysis `existsSync` answers, the synthesis invocation
result and the report timestamp tag.  `phases` records every value
assigned to `progress.phase` in order, starting with the initial
`discovering`; `notices` records the `ctx.ui.notify` calls (message,
severity); `reportWrites` records the report files written in the final
section.  The analysis fold below replays the worker-pool callbacks in one
fixed (sequential) schedule: the phase assignments, notifications and
writes are schedule-independent because the callbacks only touch the
counters — the schedule-general counter facts are proved against the pool
trace model above. -/

/-- Record `CommandOptions` (lines 18-25). -/
structure CommandOptions where
  days : Nat
  concurrency : Nat
  timeoutMinutes : Nat
  outputDir : String
  limit : Option Nat
  dryRun : Bool

/-- Model of `toOutputDir` (lines 208-211). -/
def toOutputDir (repoRoot outputArg : String) : String :=
  if jsStartsWith outputArg "/" then outputArg else repoRoot ++ "/" ++ outputArg

/-- Environment of one handler run: every effect outcome the handler
observes. -/
structure HandlerEnv where
  hasUI : Bool
  nowMs : Int
  fs : Fs
  repoRoot : String
  analysisRun : Nat → RunPiResult × Option String
  summaryExistsAfter : String → Bool
  reviewerResult : RunPiResult
  reportTag : String

/-- Observable outcome of one handler run. -/
structure HandlerRun where
  phases : List Phase
  bundleWritten : Bool
  reportWrites : List String
  notices : List (String × String)
  finalProgress : ProgressState
  results : List AnalysisResult

/-- Position of a phase in the `discovering → analyzing → reviewing → done`
order. -/
def phaseIdx : Phase → Nat
  | .discovering => 0
  | .analyzing => 1
  | .reviewing => 2
  | .done => 3

/-- Sequential replay of the analysis fan-out (lines 643-660): for each
candidate in order, run `analyzeConversation` and apply the two pool
callbacks. -/
def runAnalysisSeq (runOf : Nat → RunPiResult × Option String) :
    ProgressState → List (Nat × ConversationCandidate) → ProgressState × List AnalysisResult
  | p, [] => (p, [])
  | p, (i, cand) :: rest =>
    let r := analyzeConversation cand (runOf i).1 (runOf i).2
    let p1 := onItemDoneCb cand.sessionFileName r.success (onItemStartCb cand.sessionFileName p)
    let step := runAnalysisSeq runOf p1 rest
    (step.1, r :: step.2)

/-- The discovery notification of lines 624-629. -/
def discoveryNotice (inScope toAnalyze skipped : Nat) (limit : Option Nat) : String :=
  "conversation retro: " ++ toString inScope ++ " in scope, " ++ toString toAnalyze
    ++ " to analyze, " ++ toString skipped ++ " already summarized"
    ++ (match limit with
        | some n => if n = 0 then "" else " (limit: " ++ toString n ++ ")"
        | none => "")

/-- The reviewer failure condition of line 698
(`exitCode !== 0 || killed || !stdout.trim()`). -/
def reviewerFailed (r : RunPiResult) : Bool :=
  r.exitCode != 0 || r.killed || jsTrim r.stdout == ""

/-- The reviewer failure reason of lines 699-701. -/
def reviewerFailReason (r : RunPiResult) : String :=
  truncateMiddle (jsOr r.stderr (jsOr r.stdout
    ("Reviewer subagent exited with code " ++ toString r.exitCode)))

/-- The handler of lines 582-737. -/
def runHandler (opts : CommandOptions) (env : HandlerEnv) : HandlerRun :=
  let outputDir := toOutputDir env.repoRoot opts.outputDir
  let cutoffMs : Int := env.nowMs - (opts.days : Int) * 86400000
  let inScope := allRecentInRepo env.fs env.repoRoot cutoffMs
  let gc := getConversationCandidates env.fs env.repoRoot outputDir cutoffMs
  let limited := limitedCandidates opts.limit gc.1
  let progress1 := analysisStartProgress outputDir inScope.length gc.2 limited.length
  let notices0 : List (String × String) :=
    if env.hasUI then
      [(discoveryNotice inScope.length limited.length gc.2 opts.limit, "info")]
    else []
  if opts.dryRun then
    { phases := [.discovering, .analyzing, .done],
      bundleWritten := false, reportWrites := [],
      notices := notices0 ++
        (if env.hasUI then
          [("conversation retro dry run complete (no subagents were started)", "info")]
        else []),
      finalProgress := { progress1 with phase := .done },
      results := [] }
  else
    let ar := runAnalysisSeq env.analysisRun progress1 limited.enum
    let failed := ar.2.filter fun r => !r.success
    let notices1 := notices0 ++
      (if 0 < failed.length ∧ env.hasUI = true then
        [("conversation retro: " ++ toString failed.length ++ " subagents failed", "warning")]
      else [])
    let summaryPaths := (inScope.map fun f => summaryPathOf outputDir f.path).filter
      env.summaryExistsAfter
    if summaryPaths.length = 0 then
      { phases := [.discovering, .analyzing, .done],
        bundleWritten := false, reportWrites := [],
        notices := notices1 ++
          (if env.hasUI then
            [("conversation retro: no summaries available for review", "warning")]
          else []),
        finalProgress := { ar.1 with phase := .done },
        results := ar.2 }
    else
      if reviewerFailed env.reviewerResult then
        { phases := [.discovering, .analyzing, .reviewing, .done],
          bundleWritten := true, reportWrites := [],
          notices := notices1 ++
            (if env.hasUI then
              [("conversation retro reviewer failed: "
                  ++ reviewerFailReason env.reviewerResult, "error")]
            else []),
          finalProgress := { ar.1 with phase := .done },
          results := ar.2 }
      else
        let reportPath := outputDir ++ "/workflow-improvement-report-" ++ env.reportTag ++ ".md"
        { phases := [.discovering, .analyzing, .reviewing, .done],
          bundleWritten := true,
          reportWrites := [reportPath,
            outputDir ++ "/workflow-improvement-report-latest.md"],
          notices := notices1 ++
            (if env.hasUI then
              [("conversation retro complete",
                if 0 < failed.length then "warning" else "info")]
            else []),
          finalProgress := { ar.1 with
            phase := .done, reviewerDone := true, reportPath? := some reportPath },
          results := ar.2 }

end ConversationRetro

namespace ConversationRetro

/-- Claim C4: in every run of the handler the phase moves only forward
through `discovering → analyzing → reviewing → done` (strictly increasing
positions, hence never backward), starts at `discovering`, and every exit
path — dry-run, zero summaries available for review, synthesis failure and
normal completion — sets the phase to `done` before the handler returns. -/
theorem handler_phases_monotone (opts : CommandOptions) (env : HandlerEnv) :
    List.Chain' (fun a b => phaseIdx a < phaseIdx b) (runHandler opts env).phases
  ∧ (runHandler opts env).phases.head? = some Phase.discovering
  ∧ (runHandler opts env).phases.getLast? = some Phase.done := by
  have hph : (runHandler opts env).phases = [.discovering, .analyzing, .done]
      ∨ (runHandler opts env).phases = [.discovering, .analyzing, .reviewing, .done] := by
    unfold runHandler
    dsimp only
    split
    · exact Or.inl rfl
    · split
      · exact Or.inl rfl
      · split
        · exact Or.inr rfl
        · exact Or.inr rfl
  rcases hph with hph | hph <;> rw [hph] <;>
    refine ⟨by simp [List.chain'_cons, phaseIdx], by rfl, by rfl⟩

/-- Claim C5: when the handler reaches the synthesis step and the reviewer
invocation fails (nonzero exit, killed, or empty trimmed stdout), the
handler writes neither the timestamp-tagged report nor the latest-alias
report, emits the failure notification, and still sets the phase to `done`
before returning. -/
theorem synthesis_failure_no_report (opts : CommandOptions) (env : HandlerEnv)
    (hdry : opts.dryRun = false)
    (hsum : ((allRecentInRepo env.fs env.repoRoot
        (env.nowMs - (opts.days : Int) * 86400000)).map fun f =>
          summaryPathOf (toOutputDir env.repoRoot opts.outputDir) f.path).filter
        env.summaryExistsAfter ≠ [])
    (hfail : reviewerFailed env.reviewerResult = true) :
    (runHandler opts env).reportWrites = []
  ∧ (env.hasUI = true →
      ("conversation retro reviewer failed: " ++ reviewerFailReason env.reviewerResult,
        "error") ∈ (runHandler opts env).notices)
  ∧ (runHandler opts env).finalProgress.phase = Phase.done
  ∧ (runHandler opts env).phases.getLast? = some Phase.done := by
  have hlen : ¬ (((allRecentInRepo env.fs env.repoRoot
      (env.nowMs - (opts.days : Int) * 86400000)).map fun f =>
        summaryPathOf (toOutputDir env.repoRoot opts.outputDir) f.path).filter
      env.summaryExistsAfter).length = 0 := by
    intro h
    exact hsum (List.eq_nil_of_length_eq_zero h)
  unfold runHandler
  simp only [hdry, Bool.false_eq_true, if_false, hlen, hfail, if_true]
  refine ⟨?_, ?_, ?_, ?_⟩
  · first | rfl | trivial
  · intro hui
    simp only [hui, if_true]
    exact List.mem_append_right _ (List.mem_cons_self _ _)
  · first | rfl | trivial
  · first | rfl | trivial

/-- Concrete options for the claim C5 witness. -/
def handlerWitnessOpts : CommandOptions :=
  { days := 7, concurrency := 10, timeoutMinutes := 12, outputDir := "/o",
    limit := none, dryRun := false }

/-- Concrete environment for the claim C5 witness: one in-scope session
whose summary exists after analysis, and a synthesis invocation that exits
nonzero. -/
def handlerWitnessEnv : HandlerEnv :=
  { hasUI := true, nowMs := 10,
    fs := ⟨[⟨"/h/a.jsonl", 9, some ⟨some "session", some "/r"⟩⟩], []⟩,
    repoRoot := "/r",
    analysisRun := fun _ => (⟨"ok", "", 0, false⟩, none),
    summaryExistsAfter := fun _ => true,
    reviewerResult := ⟨"", "boom", 1, false⟩,
    reportTag := "t" }

/-- Witness for claim C5 at the concrete failing-synthesis run. -/
theorem synthesis_failure_no_report_witness :
    (runHandler handlerWitnessOpts handlerWitnessEnv).reportWrites = []
  ∧ (runHandler handlerWitnessOpts handlerWitnessEnv).finalProgress.phase = Phase.done := by
  have h := synthesis_failure_no_report handlerWitnessOpts handlerWitnessEnv
    rfl (by decide) (by decide)
  exact ⟨h.1, h.2.2.1⟩

end ConversationRetro
